import Mathlib

/-!
Verification development for the GoSec unified finding graph engine
(package engine: graph store, correlation rule, snapshot and diff, attack
path search). The Go code is shallowly embedded: Go slices become lists,
Go maps become association lists (first key match wins on lookup), the Go
int severity becomes Int, and file contents for the snapshot loader become
a small inductive covering the JSON shapes the loader distinguishes.
-/

namespace GoSec

/-- Prefix test on character lists: true when the first list is a prefix of
the second, comparing characters with BEq. -/
def listPrefixOf : List Char → List Char → Bool
  | [], _ => true
  | _ :: _, [] => false
  | a :: as, b :: bs => a == b && listPrefixOf as bs

/-- Substring search on character lists: true when the needle occurs
contiguously in the haystack. -/
def hasSubstr (needle : List Char) : List Char → Bool
  | [] => listPrefixOf needle []
  | c :: rest => listPrefixOf needle (c :: rest) || hasSubstr needle rest

/-- Models Go strings.Contains s sub (case-sensitive substring test). -/
def strContains (s sub : String) : Bool :=
  hasSubstr sub.data s.data

/-- ASCII lowercasing of one character; agrees with Go strings.ToLower on the
ASCII evidence strings this code base compares. -/
def charToLower (c : Char) : Char :=
  if 65 ≤ c.toNat ∧ c.toNat ≤ 90 then Char.ofNat (c.toNat + 32) else c

/-- Models Go strings.ToLower on ASCII data. -/
def strToLower (s : String) : String :=
  ⟨s.data.map charToLower⟩

/-- Boolean membership of a string in a list, mirroring a Go map[string]bool
lookup over the set of keys. -/
def strMem : List String → String → Bool
  | [], _ => false
  | x :: xs, s => x == s || strMem xs s

/-- Finding struct from pkg/engine. Go int is modelled as Int so that
out-of-range severities (≤ 0, > 10) are representable. -/
structure Finding where
  id : String
  sourceTool : String
  category : String
  severity : Int
  confidence : String
  asset : String
  evidence : String
  remediationHint : String
  complianceList : List String
deriving DecidableEq, Inhabited

/-- Node struct from pkg/engine (graph vertex). -/
structure Node where
  id : String
  type : String
  label : String
  metadata : List (String × String)
deriving DecidableEq, Inhabited

/-- Edge struct from pkg/engine (directed relationship). -/
structure Edge where
  sourceID : String
  targetID : String
  type : String
  weight : Int
deriving DecidableEq, Inhabited

/-- UnifiedGraph from pkg/engine (the richer variant holding topology).
The Go map of nodes is an association list keyed by node id. -/
structure UnifiedGraph where
  nodes : List (String × Node)
  edges : List Edge
  findings : List Finding
deriving DecidableEq, Inhabited

/-- NewUnifiedGraph: the fresh, empty graph. -/
def NewUnifiedGraph : UnifiedGraph :=
  { nodes := [], edges := [], findings := [] }

/-- Lookup in the node map (Go map indexing g.Nodes[k]). -/
def lookupNode : List (String × Node) → String → Option Node
  | [], _ => none
  | (k0, n) :: rest, k => if k0 == k then some n else lookupNode rest k

/-- Overwrite-or-append insertion into the node map (Go map assignment). -/
def mapInsertNode : List (String × Node) → String → Node → List (String × Node)
  | [], k, v => [(k, v)]
  | (k0, n0) :: rest, k, v =>
    if k0 == k then (k, v) :: rest else (k0, n0) :: mapInsertNode rest k v

/-- AddNode from pkg/engine: adds or updates a node keyed by its id. -/
def AddNode (g : UnifiedGraph) (n : Node) : UnifiedGraph :=
  { g with nodes := mapInsertNode g.nodes n.id n }

/-- AddEdge from pkg/engine: appends an edge. -/
def AddEdge (g : UnifiedGraph) (e : Edge) : UnifiedGraph :=
  { g with edges := g.edges ++ [e] }

/-- Step 2 of AddFindings: the two sequential severity guards
(raise below 1 to 1, then lower above 10 to 10). -/
def clampSeverity (f : Finding) : Finding :=
  let s1 := if f.severity < 1 then 1 else f.severity
  let s2 := if s1 > 10 then 10 else s1
  { f with severity := s2 }

/-- Dedup comparison from the AddFindings scan: same asset, category,
source tool and evidence. -/
def sameSig (existing f : Finding) : Bool :=
  existing.asset == f.asset && existing.category == f.category &&
    existing.sourceTool == f.sourceTool && existing.evidence == f.evidence

/-- Step 3 of AddFindings: overwrite the first stored finding with matching
signature in place, otherwise append at the end. -/
def upsert : List Finding → Finding → List Finding
  | [], f => [f]
  | e :: rest, f => if sameSig e f then f :: rest else e :: upsert rest f

/-- Step 1 of AddFindings: auto-create a host node for a non-empty asset
that has no node yet. -/
def ensureAssetNode (nodes : List (String × Node)) (asset : String) :
    List (String × Node) :=
  if asset ≠ "" ∧ (lookupNode nodes asset).isNone then
    nodes ++ [(asset, { id := asset, type := "host", label := asset, metadata := [] })]
  else nodes

/-- Body of the per-finding loop in AddFindings. -/
def addFinding (g : UnifiedGraph) (f : Finding) : UnifiedGraph :=
  { g with
      nodes := ensureAssetNode g.nodes f.asset,
      findings := upsert g.findings (clampSeverity f) }

/-- Scan predicate for the open-SSH half of the built-in correlation rule. -/
def isOpenSSH (f : Finding) : Bool :=
  f.sourceTool == "Nmap" && strContains f.evidence "22/tcp" &&
    strContains f.evidence "open"

/-- Scan predicate for the weak-crypto half of the built-in correlation rule. -/
def isWeakCrypto (f : Finding) : Bool :=
  f.sourceTool == "Lynis" && strContains (strToLower f.evidence) "crypto"

/-- Index of the last element satisfying p: the Go scan overwrites
sshFindingIndex on every match, keeping the final one. -/
def lastIdxWhere (p : Finding → Bool) : List Finding → Option Nat
  | [] => none
  | f :: rest =>
    match lastIdxWhere p rest with
    | some i => some (i + 1)
    | none => if p f then some 0 else none

/-- Index of the first element satisfying p (the dedup scan breaks on the
first match). -/
def firstIdxWhere (p : Finding → Bool) : List Finding → Option Nat
  | [] => none
  | f :: rest =>
    if p f then some 0 else (firstIdxWhere p rest).map (fun i => i + 1)

/-- Remediation-hint suffix appended by the escalation rule. -/
def critSuffix : String := " [CRITICAL: Combined with Weak Crypto Policy]"

/-- Effect of the escalation rule on the selected SSH finding. The whole
effect, including the hint append, is guarded by severity < 10. -/
def boostFinding (f : Finding) : Finding :=
  if f.severity < 10 then
    let s1 := f.severity + 2
    let s2 := if s1 > 10 then 10 else s1
    { f with severity := s2, remediationHint := f.remediationHint ++ critSuffix }
  else f

/-- Replace the i-th element of a list by its image under g, when present. -/
def listModify (g : Finding → Finding) : Nat → List Finding → List Finding
  | _, [] => []
  | 0, f :: rest => g f :: rest
  | n + 1, f :: rest => f :: listModify g n rest

/-- detectRelationships from pkg/engine: the built-in Nmap-open-SSH plus
Lynis-weak-crypto escalation rule, applied to the last matching SSH finding. -/
def detectRelationships (fs : List Finding) : List Finding :=
  match lastIdxWhere isOpenSSH fs with
  | none => fs
  | some i => if fs.any isWeakCrypto then listModify boostFinding i fs else fs

/-- Batch loop of AddFindings, before the correlation pass. -/
def ingestAll (g : UnifiedGraph) (batch : List Finding) : UnifiedGraph :=
  batch.foldl addFinding g

/-- AddFindings from pkg/engine: ingest the whole batch (node creation,
severity clamp, dedup), then re-run the correlation pass over the entire
finding set. -/
def AddFindings (g : UnifiedGraph) (batch : List Finding) : UnifiedGraph :=
  let g1 := ingestAll g batch
  { g1 with findings := detectRelationships g1.findings }

/-- GenerateSignature from pkg/engine. -/
def GenerateSignature (f : Finding) : String :=
  f.sourceTool ++ "|" ++ f.category ++ "|" ++ f.asset ++ "|" ++ f.evidence

/-- GraphSnapshot from pkg/engine: the structured envelope schema. -/
structure GraphSnapshot where
  nodes : List (String × Node)
  edges : List Edge
  findings : List Finding
deriving DecidableEq, Inhabited

/-- Content of a snapshot file, as the loader distinguishes it. Go's
json.Unmarshal into the GraphSnapshot struct succeeds exactly on a JSON
object of that schema (envelope); Unmarshal into a Finding slice succeeds
exactly on a JSON array of Finding objects (bareList); invalid stands for
every content on which both parses fail. -/
inductive JsonFile where
  | envelope (s : GraphSnapshot)
  | bareList (fs : List Finding)
  | invalid
deriving DecidableEq, Inhabited

/-- SaveSnapshot from pkg/engine: serializes the whole graph as the
structured envelope document. -/
def SaveSnapshot (g : UnifiedGraph) : JsonFile :=
  JsonFile.envelope { nodes := g.nodes, edges := g.edges, findings := g.findings }

/-- Error message of the final parse failure in LoadSnapshot. -/
def loadErrMsg : String :=
  "failed to parse snapshot as GraphSnapshot or []Finding"

/-- LoadSnapshot from pkg/engine: try the envelope schema first and take it
only when it yields at least one node or at least one finding (edges are not
consulted); otherwise fall back to the bare finding list; error when both
paths fail. On success the target graph fields are replaced; on error the
target graph is left untouched by the Go code. -/
def LoadSnapshot (g : UnifiedGraph) (file : JsonFile) : Except String UnifiedGraph :=
  match file with
  | JsonFile.envelope s =>
    if s.nodes.length > 0 || s.findings.length > 0 then
      Except.ok { g with nodes := s.nodes, edges := s.edges, findings := s.findings }
    else
      Except.error loadErrMsg
  | JsonFile.bareList fs => Except.ok { g with findings := fs }
  | JsonFile.invalid => Except.error loadErrMsg

/-- True when the loader result is the error case. -/
def loadIsError : Except String UnifiedGraph → Bool
  | Except.ok _ => false
  | Except.error _ => true

/-- True when Go's json.Unmarshal of the file into the envelope struct
returns a nil error (regardless of what the loader then does with it). -/
def envelopeParseOk : JsonFile → Bool
  | JsonFile.envelope _ => true
  | _ => false

/-- Result graph of a save followed by a load into a fresh graph; on a load
error the fresh target graph is left unchanged, as in the Go code. -/
def saveLoadRoundTrip (g : UnifiedGraph) : UnifiedGraph :=
  match LoadSnapshot NewUnifiedGraph (SaveSnapshot g) with
  | Except.ok g2 => g2
  | Except.error _ => NewUnifiedGraph

/-- SnapshotDiff from pkg/engine. -/
structure SnapshotDiff where
  new : List Finding
  fixed : List Finding
  unchanged : List Finding
deriving DecidableEq, Inhabited

/-- Overwrite-or-append insertion into a signature map (Go map assignment). -/
def mapInsertSig : List (String × Finding) → String → Finding → List (String × Finding)
  | [], k, v => [(k, v)]
  | (k0, v0) :: rest, k, v =>
    if k0 == k then (k, v) :: rest else (k0, v0) :: mapInsertSig rest k v

/-- Signature map of a finding list (later findings overwrite earlier ones
with the same signature, as in the Go map). -/
def buildSigMap (fs : List Finding) : List (String × Finding) :=
  fs.foldl (fun m f => mapInsertSig m (GenerateSignature f) f) []

/-- Key membership in a signature map. -/
def mapContainsKey (m : List (String × Finding)) (k : String) : Bool :=
  m.any (fun p => p.1 == k)

/-- CompareSnapshot from pkg/engine: classify current findings against the
baseline signature map, then collect baseline entries absent from the
current map as Fixed. Go iterates the baseline map in unspecified order;
the model uses the map's insertion order, and the theorems only rely on
membership. -/
def CompareSnapshot (g baseline : UnifiedGraph) : SnapshotDiff :=
  let baselineMap := buildSigMap baseline.findings
  let currentMap := buildSigMap g.findings
  let d1 := g.findings.foldl
    (fun (d : SnapshotDiff) (f : Finding) =>
      if mapContainsKey baselineMap (GenerateSignature f) then
        { d with unchanged := d.unchanged ++ [f] }
      else
        { d with new := d.new ++ [f] })
    ({ new := [], fixed := [], unchanged := [] } : SnapshotDiff)
  { d1 with
      fixed := (baselineMap.filter (fun p => ! mapContainsKey currentMap p.1)).map
        (fun p => p.2) }

/-- PathStep from the attack path engine. -/
structure PathStep where
  nodeID : String
  edgeType : String
  description : String
deriving DecidableEq, Inhabited

/-- AttackPath from the attack path engine; Score is carried but never
computed by the current rules. -/
structure AttackPath where
  steps : List PathStep
  score : Int
deriving DecidableEq, Inhabited

/-- Neighbor expansion of one BFS iteration: scan the edge list, and for
every edge leaving the current node whose target is unvisited, mark the
target visited and enqueue the extended path. -/
def expand (node : String) (path : List String) :
    List Edge → List (List String) × List String → List (List String) × List String
  | [], qv => qv
  | e :: es, (q, v) =>
    if e.sourceID == node && ! strMem v e.targetID then
      expand node path es (q ++ [path ++ [e.targetID]], v ++ [e.targetID])
    else
      expand node path es (q, v)

/-- Edge targets not yet visited (each counted once). -/
def unvisitedTargets (edges : List Edge) (visited : List String) : List String :=
  ((edges.map fun e => e.targetID).dedup).filter (fun t => ! strMem visited t)

/-- Termination measure of the BFS loop: queue length plus twice the number
of unvisited edge targets. Every iteration strictly decreases it, because a
vertex is enqueued only when it is first marked visited. -/
def bfsMeasure (edges : List Edge) (queue : List (List String)) (visited : List String) : Nat :=
  queue.length + 2 * (unvisitedTargets edges visited).length

/-- Fuelled transcription of the findPath BFS loop. The Go loop is
unbounded; the fuel is a bound on the number of iterations, and
bfsAux_fuel_indep below shows any fuel above bfsMeasure yields the same
result, which is exactly the termination of the Go loop. -/
def bfsAux (edges : List Edge) (endId : String) :
    Nat → List (List String) → List String → Option (List String)
  | 0, _, _ => none
  | _ + 1, [], _ => none
  | fuel + 1, path :: rest, visited =>
    let node := path.getLastD ""
    if node == endId then some path
    else
      let qv := expand node path edges (rest, visited)
      bfsAux edges endId fuel qv.1 qv.2

/-- findPath from the attack path engine: BFS from start to endId carrying
full paths, seeded with the start vertex visited. -/
def findPath (g : UnifiedGraph) (start endId : String) : Option (List String) :=
  bfsAux g.edges endId (bfsMeasure g.edges [[start]] [start] + 1) [[start]] [start]

/-- First edge from src to tgt in insertion order. -/
def findEdge (edges : List Edge) (src tgt : String) : Option Edge :=
  edges.find? (fun e => e.sourceID == src && e.targetID == tgt)

/-- Node-information suffix of a step description in buildAttackPath. -/
def describeNode (nodes : List (String × Node)) (id : String) (base : String) : String :=
  match lookupNode nodes id with
  | none => base
  | some n =>
    if n.label ≠ "" then base ++ " -> [" ++ n.label ++ "] (" ++ n.type ++ ")"
    else base ++ " -> [" ++ n.id ++ "] (" ++ n.type ++ ")"

/-- One step of buildAttackPath: the start step has description Start; later
steps carry the type of the first edge from the previous vertex. -/
def buildStep (g : UnifiedGraph) (prev : Option String) (id : String) : PathStep :=
  match prev with
  | none => { nodeID := id, edgeType := "", description := describeNode g.nodes id "Start" }
  | some p =>
    match findEdge g.edges p id with
    | some e =>
      { nodeID := id, edgeType := e.type,
        description := describeNode g.nodes id ("exploits " ++ e.type) }
    | none => { nodeID := id, edgeType := "", description := describeNode g.nodes id "" }

/-- Steps after the first vertex, each knowing its predecessor. -/
def buildStepsFrom (g : UnifiedGraph) : String → List String → List PathStep
  | _, [] => []
  | prev, id :: rest => buildStep g (some prev) id :: buildStepsFrom g id rest

/-- buildAttackPath from the attack path engine. -/
def buildAttackPath (g : UnifiedGraph) : List String → AttackPath
  | [] => { steps := [], score := 0 }
  | id :: rest => { steps := buildStep g none id :: buildStepsFrom g id rest, score := 0 }

/-- Target vertices: assets of findings with severity at least 7 that have a
node, each once. Go iterates this target set in unspecified map order; the
model keeps first-occurrence order, and the theorems about multiple targets
only rely on the set. -/
def targetAssets (g : UnifiedGraph) : List String :=
  g.findings.foldl
    (fun acc f =>
      if 7 ≤ f.severity ∧ (lookupNode g.nodes f.asset).isSome ∧ ¬ strMem acc f.asset then
        acc ++ [f.asset]
      else acc)
    []

/-- FindPathsToCriticalAssets from the attack path engine: empty when no
attacker vertex exists, otherwise one BFS per qualifying target. The
function has no error output at all: logical absence is an empty list. -/
def FindPathsToCriticalAssets (g : UnifiedGraph) : List AttackPath :=
  if (lookupNode g.nodes "attacker").isNone then []
  else
    (targetAssets g).foldl
      (fun acc t =>
        if t == "attacker" then acc
        else
          match findPath g "attacker" t with
          | some p => acc ++ [buildAttackPath g p]
          | none => acc)
      []

/-- Nmap open-SSH finding of the escalation scenario (severity 5). -/
def nmapSSH5 : Finding :=
  { id := "nmap-ssh-1", sourceTool := "Nmap", category := "network", severity := 5,
    confidence := "", asset := "H1", evidence := "22/tcp open ssh",
    remediationHint := "", complianceList := [] }

/-- Lynis weak-crypto finding of the escalation scenario (severity 6). -/
def lynisCrypto6 : Finding :=
  { id := "lynis-warn-1", sourceTool := "Lynis", category := "compliance", severity := 6,
    confidence := "", asset := "H1", evidence := "Weak crypto policy detected",
    remediationHint := "", complianceList := [] }

/-- Same open-SSH finding already at the severity cap. -/
def nmapSSH10 : Finding :=
  { nmapSSH5 with severity := 10 }

/-- Escalation chain: first ingestion of the qualifying pair. -/
def escState0 : UnifiedGraph := AddFindings NewUnifiedGraph [nmapSSH5, lynisCrypto6]

/-- Escalation chain: one re-ingestion of the Lynis finding. -/
def escState1 : UnifiedGraph := AddFindings escState0 [lynisCrypto6]

/-- Escalation chain: two re-ingestions. -/
def escState2 : UnifiedGraph := AddFindings escState1 [lynisCrypto6]

/-- Escalation chain: three re-ingestions. -/
def escState3 : UnifiedGraph := AddFindings escState2 [lynisCrypto6]

/-- Diff scenario finding on Asset1. -/
def fA1 : Finding :=
  { id := "", sourceTool := "ToolA", category := "Test", severity := 5,
    confidence := "", asset := "Asset1", evidence := "Finding 1",
    remediationHint := "", complianceList := [] }

/-- Diff scenario finding on Asset2. -/
def fA2 : Finding :=
  { fA1 with asset := "Asset2", evidence := "Finding 2" }

/-- Diff scenario finding on Asset3. -/
def fA3 : Finding :=
  { fA1 with asset := "Asset3", evidence := "Finding 3" }

/-- Diff scenario baseline graph. -/
def baselineG : UnifiedGraph := { nodes := [], edges := [], findings := [fA1, fA2] }

/-- Diff scenario current graph. -/
def currentG : UnifiedGraph := { nodes := [], edges := [], findings := [fA1, fA3] }

/-- Attacker entry vertex. -/
def attackerNode : Node :=
  { id := "attacker", type := "attacker", label := "Attacker", metadata := [] }

/-- Host vertex B of the cycle scenario. -/
def nodeB : Node := { id := "B", type := "host", label := "B", metadata := [] }

/-- High-severity finding on B. -/
def findingB : Finding :=
  { id := "f-b", sourceTool := "ToolA", category := "Test", severity := 8,
    confidence := "", asset := "B", evidence := "weakness on B",
    remediationHint := "", complianceList := [] }

/-- Cyclic topology: attacker to B and back, B qualifying. -/
def cycleGraph : UnifiedGraph :=
  { nodes := [("attacker", attackerNode), ("B", nodeB)],
    edges := [{ sourceID := "attacker", targetID := "B", type := "connects_to", weight := 1 },
              { sourceID := "B", targetID := "attacker", type := "connects_to", weight := 1 }],
    findings := [findingB] }

/-- Expected single path of the cycle scenario. -/
def cyclePath : AttackPath :=
  { steps :=
      [{ nodeID := "attacker", edgeType := "",
         description := "Start -> [Attacker] (attacker)" },
       { nodeID := "B", edgeType := "connects_to",
         description := "exploits connects_to -> [B] (host)" }],
    score := 0 }

/-- Graph with a qualifying finding but no attacker vertex. -/
def noAttackerGraph : UnifiedGraph :=
  { nodes := [("B", nodeB)],
    edges := [{ sourceID := "B", targetID := "B", type := "connects_to", weight := 1 }],
    findings := [findingB] }

/-- Graph with an attacker vertex but only a low-severity finding. -/
def lowSevGraph : UnifiedGraph :=
  { nodes := [("attacker", attackerNode), ("B", nodeB)],
    edges := [{ sourceID := "attacker", targetID := "B", type := "connects_to", weight := 1 }],
    findings := [{ findingB with severity := 5 }] }

/-- Envelope snapshot holding only edges. -/
def edgeOnlySnapshot : GraphSnapshot :=
  { nodes := [], edges := [{ sourceID := "a", targetID := "b", type := "connects_to", weight := 1 }],
    findings := [] }

/-- File whose envelope parse succeeds and yields edges but neither nodes
nor findings. -/
def edgeOnlyFile : JsonFile := JsonFile.envelope edgeOnlySnapshot

/-- Finding with an out-of-range severity, as a snapshot file could carry. -/
def f42 : Finding := { fA1 with severity := 42 }

/-- Batch findings with out-of-range severities for the clamp scenario. -/
def fNeg : Finding := { fA1 with severity := -5 }

/-- Batch finding above the cap for the clamp scenario. -/
def fBig : Finding := { fA2 with severity := 99 }

/-- Findings held by the graph a loader call returns (empty on a load
error, where the Go code leaves the target graph untouched). -/
def loadedFindings : Except String UnifiedGraph → List Finding
  | Except.ok g => g.findings
  | Except.error _ => []

/-- Stored form of the Nmap SSH finding inside escState0: severity boosted
once to 7 and one escalation suffix appended. -/
def nmapSSH7esc : Finding :=
  { nmapSSH5 with severity := 7, remediationHint := critSuffix }

/-- Severity invariant maintained by ingestion: every stored severity lies
in the range one to ten. -/
def severityInv (l : List Finding) : Prop :=
  ∀ f ∈ l, 1 ≤ f.severity ∧ f.severity ≤ 10

/-- Dedup invariant maintained by ingestion: no two stored findings share
the (sourceTool, category, asset, evidence) signature tuple. -/
def distinctSigs (l : List Finding) : Prop :=
  l.Pairwise (fun a b => sameSig a b = false)

theorem clampSeverity_bounds (f : Finding) :
    1 ≤ (clampSeverity f).severity ∧ (clampSeverity f).severity ≤ 10 := by
  simp only [clampSeverity]
  split <;> split <;> omega

theorem clampSeverity_of_inRange (f : Finding) (h1 : 1 ≤ f.severity)
    (h2 : f.severity ≤ 10) : clampSeverity f = f := by
  simp only [clampSeverity]
  have hx : ¬ f.severity < 1 := by omega
  have hy : ¬ f.severity > 10 := by omega
  simp [hx, hy]

theorem mem_upsert {x f : Finding} : ∀ {l : List Finding},
    x ∈ upsert l f → x = f ∨ x ∈ l := by
  intro l
  induction l with
  | nil => simp [upsert]
  | cons e rest ih =>
    simp only [upsert]
    split
    · intro h
      rcases List.mem_cons.mp h with h1 | h1
      · exact Or.inl h1
      · exact Or.inr (List.mem_cons_of_mem e h1)
    · intro h
      rcases List.mem_cons.mp h with h1 | h1
      · exact Or.inr (h1 ▸ List.mem_cons_self e rest)
      · rcases ih h1 with h2 | h2
        · exact Or.inl h2
        · exact Or.inr (List.mem_cons_of_mem e h2)

theorem boost_severity_val (f : Finding) :
    (boostFinding f).severity =
      if f.severity < 10 then (if f.severity + 2 > 10 then 10 else f.severity + 2)
      else f.severity := by
  simp only [boostFinding]
  split <;> simp

theorem boostFinding_bounds (f : Finding) (h1 : 1 ≤ f.severity)
    (h2 : f.severity ≤ 10) :
    1 ≤ (boostFinding f).severity ∧ (boostFinding f).severity ≤ 10 := by
  have hv := boost_severity_val f
  rcases Int.lt_or_le f.severity 10 with h | h
  · rw [if_pos h] at hv
    rcases Int.lt_or_le 10 (f.severity + 2) with h3 | h3
    · rw [if_pos (show f.severity + 2 > 10 from h3)] at hv
      omega
    · rw [if_neg (show ¬ f.severity + 2 > 10 by omega)] at hv
      omega
  · rw [if_neg (show ¬ f.severity < 10 by omega)] at hv
    omega

theorem mem_listModify {x : Finding} {g : Finding → Finding} :
    ∀ {i : Nat} {l : List Finding}, x ∈ listModify g i l →
      x ∈ l ∨ ∃ y, y ∈ l ∧ x = g y := by
  intro i l
  induction l generalizing i with
  | nil => simp [listModify]
  | cons e rest ih =>
    cases i with
    | zero =>
      simp only [listModify]
      intro h
      rcases List.mem_cons.mp h with h1 | h1
      · exact Or.inr ⟨e, List.mem_cons_self e rest, h1⟩
      · exact Or.inl (List.mem_cons_of_mem e h1)
    | succ n =>
      simp only [listModify]
      intro h
      rcases List.mem_cons.mp h with h1 | h1
      · exact Or.inl (h1 ▸ List.mem_cons_self e rest)
      · rcases ih h1 with h2 | h2
        · exact Or.inl (List.mem_cons_of_mem e h2)
        · rcases h2 with ⟨y, hy, hxy⟩
          exact Or.inr ⟨y, List.mem_cons_of_mem e hy, hxy⟩

theorem severityInv_upsert {l : List Finding} {f : Finding}
    (hl : severityInv l) (hf : 1 ≤ f.severity ∧ f.severity ≤ 10) :
    severityInv (upsert l f) := by
  intro x hx
  rcases mem_upsert hx with h | h
  · exact h ▸ hf
  · exact hl x h

theorem detect_eq_or (l : List Finding) :
    detectRelationships l = l ∨
      ∃ i, detectRelationships l = listModify boostFinding i l := by
  unfold detectRelationships
  rcases lastIdxWhere isOpenSSH l with _ | i
  · exact Or.inl rfl
  · by_cases hw : l.any isWeakCrypto
    · exact Or.inr ⟨i, by simp [hw]⟩
    · exact Or.inl (by simp [hw])

theorem severityInv_detect {l : List Finding} (hl : severityInv l) :
    severityInv (detectRelationships l) := by
  rcases detect_eq_or l with h | ⟨i, h⟩
  · rw [h]; exact hl
  · rw [h]
    intro x hx
    rcases mem_listModify hx with h2 | h2
    · exact hl x h2
    · rcases h2 with ⟨y, hy, hxy⟩
      have hyb := hl y hy
      exact hxy ▸ boostFinding_bounds y hyb.1 hyb.2

theorem severityInv_addFinding {g : UnifiedGraph} {f : Finding}
    (hg : severityInv g.findings) : severityInv (addFinding g f).findings := by
  simp only [addFinding]
  exact severityInv_upsert hg (clampSeverity_bounds f)

theorem severityInv_ingestAll {batch : List Finding} : ∀ {g : UnifiedGraph},
    severityInv g.findings → severityInv (ingestAll g batch).findings := by
  induction batch with
  | nil => intro g hg; simpa [ingestAll] using hg
  | cons f rest ih =>
    intro g hg
    have h1 : ingestAll g (f :: rest) = ingestAll (addFinding g f) rest := by
      simp [ingestAll]
    rw [h1]
    exact ih (severityInv_addFinding hg)

theorem severityInv_AddFindings {g : UnifiedGraph} {batch : List Finding}
    (hg : severityInv g.findings) : severityInv (AddFindings g batch).findings := by
  simp only [AddFindings]
  exact severityInv_detect (severityInv_ingestAll hg)

theorem sameSig_iff {a b : Finding} :
    sameSig a b = true ↔
      a.asset = b.asset ∧ a.category = b.category ∧
        a.sourceTool = b.sourceTool ∧ a.evidence = b.evidence := by
  simp [sameSig, Bool.and_eq_true, and_assoc]

theorem sameSig_symm_eq (a b : Finding) : sameSig a b = sameSig b a := by
  by_cases h : sameSig a b = true
  · have h2 := sameSig_iff.mp h
    rw [h, Eq.symm (sameSig_iff.mpr ⟨h2.1.symm, h2.2.1.symm, h2.2.2.1.symm, h2.2.2.2.symm⟩)]
  · by_cases h3 : sameSig b a = true
    · have h4 := sameSig_iff.mp h3
      exact absurd (sameSig_iff.mpr ⟨h4.1.symm, h4.2.1.symm, h4.2.2.1.symm, h4.2.2.2.symm⟩) h
    · rw [Bool.eq_false_iff.mpr h, Bool.eq_false_iff.mpr h3]

theorem sameSig_trans {a b c : Finding} (h1 : sameSig a b = true)
    (h2 : sameSig b c = true) : sameSig a c = true := by
  have p1 := sameSig_iff.mp h1
  have p2 := sameSig_iff.mp h2
  exact sameSig_iff.mpr ⟨p1.1.trans p2.1, p1.2.1.trans p2.2.1,
    p1.2.2.1.trans p2.2.2.1, p1.2.2.2.trans p2.2.2.2⟩

theorem sameSig_clamp (e f : Finding) : sameSig e (clampSeverity f) = sameSig e f := by
  simp [sameSig, clampSeverity]

theorem sameSig_boost_right (a b : Finding) :
    sameSig a (boostFinding b) = sameSig a b := by
  simp only [boostFinding]
  split <;> simp [sameSig]

theorem sameSig_boost_left (a b : Finding) :
    sameSig (boostFinding a) b = sameSig a b := by
  rw [sameSig_symm_eq, sameSig_boost_right, sameSig_symm_eq]

theorem upsert_no_match {f : Finding} : ∀ {l : List Finding},
    (∀ e ∈ l, sameSig e f = false) → upsert l f = l ++ [f] := by
  intro l
  induction l with
  | nil => intro _; simp [upsert]
  | cons e rest ih =>
    intro h
    have he : sameSig e f = false := h e (List.mem_cons_self e rest)
    simp only [upsert, he]
    simp only [Bool.false_eq_true, if_false, List.cons_append, List.cons.injEq, true_and]
    exact ih fun x hx => h x (List.mem_cons_of_mem e hx)

theorem distinctSigs_upsert {f : Finding} : ∀ {l : List Finding},
    distinctSigs l → distinctSigs (upsert l f) := by
  intro l
  induction l with
  | nil =>
    intro _
    simp [upsert, distinctSigs]
  | cons e rest ih =>
    intro h
    have hrest : distinctSigs rest := (List.pairwise_cons.mp h).2
    have hhead : ∀ x ∈ rest, sameSig e x = false := (List.pairwise_cons.mp h).1
    simp only [upsert]
    by_cases hef : sameSig e f
    · rw [if_pos hef]
      refine List.pairwise_cons.mpr ⟨?_, hrest⟩
      intro x hx
      by_cases hfx : sameSig f x = true
      · have : sameSig e x = true := sameSig_trans hef hfx
        rw [hhead x hx] at this
        exact absurd this (by simp)
      · exact Bool.eq_false_iff.mpr hfx
    · rw [if_neg hef]
      refine List.pairwise_cons.mpr ⟨?_, ih hrest⟩
      intro x hx
      rcases mem_upsert hx with h2 | h2
      · rw [h2]
        exact Bool.eq_false_iff.mpr hef
      · exact hhead x h2

theorem distinctSigs_listModify_boost {i : Nat} : ∀ {l : List Finding},
    distinctSigs l → distinctSigs (listModify boostFinding i l) := by
  induction i with
  | zero =>
    intro l h
    cases l with
    | nil => simpa [listModify] using h
    | cons e rest =>
      simp only [listModify]
      rcases List.pairwise_cons.mp h with ⟨hhead, hrest⟩
      refine List.pairwise_cons.mpr ⟨?_, hrest⟩
      intro x hx
      rw [sameSig_boost_left]
      exact hhead x hx
  | succ n ih =>
    intro l h
    cases l with
    | nil => simpa [listModify] using h
    | cons e rest =>
      simp only [listModify]
      rcases List.pairwise_cons.mp h with ⟨hhead, hrest⟩
      refine List.pairwise_cons.mpr ⟨?_, ih hrest⟩
      intro x hx
      rcases mem_listModify hx with h2 | h2
      · exact hhead x h2
      · rcases h2 with ⟨y, hy, hxy⟩
        rw [hxy, sameSig_boost_right]
        exact hhead y hy

theorem distinctSigs_detect {l : List Finding} (hl : distinctSigs l) :
    distinctSigs (detectRelationships l) := by
  rcases detect_eq_or l with h | ⟨i, h⟩
  · rw [h]; exact hl
  · rw [h]; exact distinctSigs_listModify_boost hl

theorem distinctSigs_ingestAll {batch : List Finding} : ∀ {g : UnifiedGraph},
    distinctSigs g.findings → distinctSigs (ingestAll g batch).findings := by
  induction batch with
  | nil => intro g hg; simpa [ingestAll] using hg
  | cons f rest ih =>
    intro g hg
    have h1 : ingestAll g (f :: rest) = ingestAll (addFinding g f) rest := by
      simp [ingestAll]
    rw [h1]
    exact ih (distinctSigs_upsert hg)

theorem distinctSigs_AddFindings {g : UnifiedGraph} {batch : List Finding}
    (hg : distinctSigs g.findings) : distinctSigs (AddFindings g batch).findings := by
  simp only [AddFindings]
  exact distinctSigs_detect (distinctSigs_ingestAll hg)

theorem upsert_eq_set {f : Finding} : ∀ {l : List Finding} {i : Nat},
    firstIdxWhere (fun e => sameSig e f) l = some i → upsert l f = l.set i f := by
  intro l
  induction l with
  | nil => intro i h; simp [firstIdxWhere] at h
  | cons e rest ih =>
    intro i h
    simp only [firstIdxWhere] at h
    by_cases hef : sameSig e f
    · rw [if_pos hef] at h
      cases h
      simp only [upsert, if_pos hef, List.set_cons_zero]
    · rw [if_neg hef] at h
      rcases hrest : firstIdxWhere (fun e2 => sameSig e2 f) rest with _ | j
      · rw [hrest] at h; simp at h
      · rw [hrest] at h
        simp only [Option.map_some'] at h
        cases h
        simp only [upsert, if_neg hef, List.set_cons_succ]
        rw [ih hrest]

theorem listModify_length {g : Finding → Finding} : ∀ {i : Nat} {l : List Finding},
    (listModify g i l).length = l.length := by
  intro i l
  induction l generalizing i with
  | nil => simp [listModify]
  | cons e rest ih =>
    cases i with
    | zero => simp [listModify]
    | succ n => simp [listModify, ih]

theorem detect_length (l : List Finding) :
    (detectRelationships l).length = l.length := by
  rcases detect_eq_or l with h | ⟨i, h⟩
  · rw [h]
  · rw [h, listModify_length]

theorem listModify_eq_set {g : Finding → Finding} {f : Finding} :
    ∀ {i : Nat} {l : List Finding}, l[i]? = some f →
      listModify g i l = l.set i (g f) := by
  intro i l
  induction l generalizing i with
  | nil => intro h; simp at h
  | cons e rest ih =>
    cases i with
    | zero =>
      intro h
      simp only [List.getElem?_cons_zero, Option.some.injEq] at h
      rw [h]
      simp [listModify]
    | succ n =>
      intro h
      simp only [List.getElem?_cons_succ] at h
      simp only [listModify, List.set_cons_succ]
      rw [ih h]

theorem boostFinding_eq {f : Finding} (h : f.severity < 10) :
    boostFinding f =
      { f with severity := min (f.severity + 2) 10,
               remediationHint := f.remediationHint ++ critSuffix } := by
  simp only [boostFinding, if_pos h]
  rcases Int.lt_or_le 10 (f.severity + 2) with h3 | h3
  · rw [if_pos (show f.severity + 2 > 10 from h3)]
    have : min (f.severity + 2) 10 = 10 := by omega
    rw [this]
  · rw [if_neg (show ¬ f.severity + 2 > 10 by omega)]
    have : min (f.severity + 2) 10 = f.severity + 2 := by omega
    rw [this]

theorem strMem_iff_mem {s : String} : ∀ {l : List String}, strMem l s = true ↔ s ∈ l := by
  intro l
  induction l with
  | nil => simp [strMem]
  | cons x xs ih =>
    simp only [strMem, Bool.or_eq_true, beq_iff_eq, List.mem_cons, ih]
    constructor
    · rintro (h | h)
      · exact Or.inl h.symm
      · exact Or.inr h
    · rintro (h | h)
      · exact Or.inl h.symm
      · exact Or.inr h

theorem mapContainsKey_insert (k : String) (v : Finding) (k2 : String) :
    ∀ (m : List (String × Finding)),
      mapContainsKey (mapInsertSig m k v) k2 = (k == k2 || mapContainsKey m k2) := by
  intro m
  induction m with
  | nil => simp [mapInsertSig, mapContainsKey]
  | cons p rest ih =>
    rcases p with ⟨k0, v0⟩
    simp only [mapInsertSig]
    by_cases h : k0 == k
    · rw [if_pos h]
      have hk : k0 = k := by simpa using h
      simp only [mapContainsKey, List.any_cons, hk]
      cases hb : k == k2 <;> simp
    · rw [if_neg h]
      simp only [mapContainsKey, List.any_cons] at ih ⊢
      rw [ih]
      cases k0 == k2 <;> cases k == k2 <;> simp

theorem sigMap_fold_contains (k : String) : ∀ (fs : List Finding) (m : List (String × Finding)),
    mapContainsKey (fs.foldl (fun m f => mapInsertSig m (GenerateSignature f) f) m) k =
      (mapContainsKey m k || strMem (fs.map GenerateSignature) k) := by
  intro fs
  induction fs with
  | nil => intro m; simp [strMem]
  | cons f rest ih =>
    intro m
    simp only [List.foldl_cons, List.map_cons]
    rw [ih, mapContainsKey_insert]
    simp only [strMem]
    cases mapContainsKey m k <;> cases GenerateSignature f == k <;> simp

theorem mapContainsKey_buildSigMap (fs : List Finding) (k : String) :
    mapContainsKey (buildSigMap fs) k = strMem (fs.map GenerateSignature) k := by
  rw [buildSigMap, sigMap_fold_contains]
  simp [mapContainsKey]

theorem mem_mapInsertSig {p : String × Finding} {k : String} {v : Finding} :
    ∀ {m : List (String × Finding)}, p ∈ mapInsertSig m k v → p ∈ m ∨ p = (k, v) := by
  intro m
  induction m with
  | nil => simp [mapInsertSig]
  | cons q rest ih =>
    rcases q with ⟨k0, v0⟩
    simp only [mapInsertSig]
    split
    · intro h
      rcases List.mem_cons.mp h with h1 | h1
      · exact Or.inr h1
      · exact Or.inl (List.mem_cons_of_mem _ h1)
    · intro h
      rcases List.mem_cons.mp h with h1 | h1
      · exact Or.inl (h1 ▸ List.mem_cons_self _ _)
      · rcases ih h1 with h2 | h2
        · exact Or.inl (List.mem_cons_of_mem _ h2)
        · exact Or.inr h2

theorem sigMap_fold_entries {p : String × Finding} : ∀ {fs : List Finding}
    {m : List (String × Finding)},
    p ∈ fs.foldl (fun m f => mapInsertSig m (GenerateSignature f) f) m →
      p ∈ m ∨ (p.2 ∈ fs ∧ p.1 = GenerateSignature p.2) := by
  intro fs
  induction fs with
  | nil => intro m h; exact Or.inl h
  | cons f rest ih =>
    intro m h
    simp only [List.foldl_cons] at h
    rcases ih h with h1 | h1
    · rcases mem_mapInsertSig h1 with h2 | h2
      · exact Or.inl h2
      · refine Or.inr ⟨?_, ?_⟩
        · rw [h2]; exact List.mem_cons_self _ _
        · rw [h2]
    · exact Or.inr ⟨List.mem_cons_of_mem f h1.1, h1.2⟩

theorem buildSigMap_entries {p : String × Finding} {fs : List Finding}
    (h : p ∈ buildSigMap fs) : p.2 ∈ fs ∧ p.1 = GenerateSignature p.2 := by
  rcases sigMap_fold_entries h with h1 | h1
  · simp at h1
  · exact h1

theorem mapContainsKey_exists {k : String} : ∀ {m : List (String × Finding)},
    mapContainsKey m k = true → ∃ v, (k, v) ∈ m := by
  intro m
  induction m with
  | nil => simp [mapContainsKey]
  | cons q rest ih =>
    rcases q with ⟨k0, v0⟩
    simp only [mapContainsKey, List.any_cons, Bool.or_eq_true, beq_iff_eq]
    rintro (h | h)
    · exact ⟨v0, by rw [h]; exact List.mem_cons_self _ _⟩
    · rcases ih h with ⟨v, hv⟩
      exact ⟨v, List.mem_cons_of_mem _ hv⟩

theorem diff_foldl (m : List (String × Finding)) : ∀ (fs : List Finding) (d : SnapshotDiff),
    fs.foldl
      (fun (d : SnapshotDiff) (f : Finding) =>
        if mapContainsKey m (GenerateSignature f) then
          { d with unchanged := d.unchanged ++ [f] }
        else
          { d with new := d.new ++ [f] })
      d =
    { new := d.new ++ fs.filter (fun f => ! mapContainsKey m (GenerateSignature f)),
      fixed := d.fixed,
      unchanged := d.unchanged ++ fs.filter (fun f => mapContainsKey m (GenerateSignature f)) } := by
  intro fs
  induction fs with
  | nil => intro d; simp
  | cons f rest ih =>
    intro d
    simp only [List.foldl_cons]
    by_cases h : mapContainsKey m (GenerateSignature f)
    · rw [if_pos h, ih]
      simp [List.filter_cons, h]
    · rw [if_neg h, ih]
      have h2 : mapContainsKey m (GenerateSignature f) = false := Bool.eq_false_iff.mpr h
      simp [List.filter_cons, h2]

theorem CompareSnapshot_eq (g b : UnifiedGraph) :
    CompareSnapshot g b =
      { new := g.findings.filter
          (fun f => ! mapContainsKey (buildSigMap b.findings) (GenerateSignature f)),
        fixed := ((buildSigMap b.findings).filter
          (fun p => ! mapContainsKey (buildSigMap g.findings) p.1)).map (fun p => p.2),
        unchanged := g.findings.filter
          (fun f => mapContainsKey (buildSigMap b.findings) (GenerateSignature f)) } := by
  simp only [CompareSnapshot]
  rw [diff_foldl]
  simp

theorem targets_fold_const (nodes : List (String × Node)) : ∀ (fs : List Finding)
    (acc : List String),
    (∀ f ∈ fs, ¬ (7 ≤ f.severity ∧ (lookupNode nodes f.asset).isSome = true)) →
    fs.foldl
      (fun acc f =>
        if 7 ≤ f.severity ∧ (lookupNode nodes f.asset).isSome ∧ ¬ strMem acc f.asset then
          acc ++ [f.asset]
        else acc)
      acc = acc := by
  intro fs
  induction fs with
  | nil => intro acc _; simp
  | cons f rest ih =>
    intro acc h
    have hf := h f (List.mem_cons_self f rest)
    simp only [List.foldl_cons]
    rw [if_neg (fun hc => hf ⟨hc.1, hc.2.1⟩)]
    exact ih acc fun x hx => h x (List.mem_cons_of_mem f hx)

theorem targetAssets_eq_nil {g : UnifiedGraph}
    (h : ∀ f ∈ g.findings, ¬ (7 ≤ f.severity ∧ (lookupNode g.nodes f.asset).isSome = true)) :
    targetAssets g = [] := by
  simp only [targetAssets]
  exact targets_fold_const g.nodes g.findings [] h

theorem strMem_append_single (v : List String) (t x : String) :
    strMem (v ++ [t]) x = (strMem v x || t == x) := by
  induction v with
  | nil => simp [strMem]
  | cons a as ih =>
    simp only [List.cons_append, strMem, ih]
    cases a == x <;> simp [ih]

theorem filter_unvisited_succ {U : List String} (hU : U.Nodup) {t : String}
    (ht : t ∈ U) {v : List String} (hv : strMem v t = false) :
    (U.filter (fun x => ! strMem (v ++ [t]) x)).length + 1 =
      (U.filter (fun x => ! strMem v x)).length := by
  induction U with
  | nil => simp at ht
  | cons u U1 ih =>
    rcases List.nodup_cons.mp hU with ⟨hu, hU1⟩
    rcases List.mem_cons.mp ht with h | h
    · subst h
      have hagree : ∀ x ∈ U1, (! strMem (v ++ [t]) x) = (! strMem v x) := by
        intro x hx
        rw [strMem_append_single]
        have : (t == x) = false := beq_eq_false_iff_ne.mpr fun he => hu (he ▸ hx)
        rw [this, Bool.or_false]
      have hkeep : (! strMem v t) = true := by rw [hv]; rfl
      have hdrop : (! strMem (v ++ [t]) t) = false := by
        rw [strMem_append_single, hv, beq_self_eq_true]
        rfl
      rw [List.filter_cons, List.filter_cons, hkeep, hdrop, List.filter_congr hagree]
      simp
    · have hheads : (! strMem (v ++ [t]) u) = (! strMem v u) := by
        rw [strMem_append_single]
        have : (t == u) = false := beq_eq_false_iff_ne.mpr fun he => hu (he ▸ h)
        rw [this, Bool.or_false]
      rw [List.filter_cons, List.filter_cons, hheads]
      by_cases hk : (! strMem v u) = true
      · rw [if_pos hk, if_pos hk]
        have hrec := ih hU1 h
        simp only [List.length_cons]
        omega
      · rw [if_neg hk, if_neg hk]
        exact ih hU1 h

theorem expand_measure_le {U : List String} (hU : U.Nodup) :
    ∀ (es : List Edge), (∀ e ∈ es, e.targetID ∈ U) →
    ∀ (node : String) (path : List String) (q : List (List String)) (v : List String),
    (expand node path es (q, v)).1.length +
        2 * (U.filter (fun x => ! strMem (expand node path es (q, v)).2 x)).length ≤
      q.length + 2 * (U.filter (fun x => ! strMem v x)).length := by
  intro es
  induction es with
  | nil =>
    intro _ node path q v
    have h0 : expand node path [] (q, v) = (q, v) := rfl
    rw [h0]
  | cons e es1 ih =>
    intro h node path q v
    have hes1 : ∀ e2 ∈ es1, e2.targetID ∈ U := fun e2 he2 => h e2 (List.mem_cons_of_mem e he2)
    simp only [expand]
    by_cases hc : (e.sourceID == node && ! strMem v e.targetID) = true
    · rw [if_pos hc]
      simp only [Bool.and_eq_true] at hc
      rcases hc with ⟨_, h2⟩
      have hvt : strMem v e.targetID = false := by
        cases hb : strMem v e.targetID
        · rfl
        · rw [hb] at h2; exact absurd h2 (by simp)
      have htU : e.targetID ∈ U := h e (List.mem_cons_self e es1)
      have hstep := filter_unvisited_succ hU htU hvt
      have hrec := ih hes1 node path (q ++ [path ++ [e.targetID]]) (v ++ [e.targetID])
      simp only [List.length_append, List.length_cons, List.length_nil] at hrec
      omega
    · rw [if_neg hc]
      exact ih hes1 node path q v

theorem bfsMeasure_expand_le (edges : List Edge) (node : String) (path : List String)
    (q : List (List String)) (v : List String) :
    bfsMeasure edges (expand node path edges (q, v)).1 (expand node path edges (q, v)).2 ≤
      bfsMeasure edges q v := by
  simp only [bfsMeasure, unvisitedTargets]
  exact expand_measure_le (List.nodup_dedup _)
    edges (fun e he => List.mem_dedup.mpr (List.mem_map_of_mem _ he)) node path q v

theorem bfsAux_fuel_indep_aux (edges : List Edge) (endId : String) :
    ∀ (f1 : Nat), ∀ (f2 : Nat) (q : List (List String)) (v : List String),
      bfsMeasure edges q v < f1 → bfsMeasure edges q v < f2 →
      bfsAux edges endId f1 q v = bfsAux edges endId f2 q v := by
  intro f1
  induction f1 using Nat.strong_induction_on with
  | _ f1 ih =>
    intro f2 q v h1 h2
    rcases f1 with _ | k1
    · omega
    rcases f2 with _ | k2
    · omega
    rcases q with _ | ⟨path, rest⟩
    · simp [bfsAux]
    simp only [bfsAux]
    by_cases hend : (path.getLastD "" == endId) = true
    · rw [if_pos hend, if_pos hend]
    · rw [if_neg hend, if_neg hend]
      have hexp := bfsMeasure_expand_le edges (path.getLastD "") path rest v
      have hq : bfsMeasure edges (path :: rest) v = bfsMeasure edges rest v + 1 := by
        simp only [bfsMeasure, List.length_cons]
        omega
      exact ih k1 (by omega) k2 _ _ (by omega) (by omega)

theorem detect_boost_eq_set {fs : List Finding} {i : Nat} {f : Finding}
    (h1 : lastIdxWhere isOpenSSH fs = some i) (h2 : fs[i]? = some f)
    (h3 : fs.any isWeakCrypto = true) (h4 : f.severity < 10) :
    detectRelationships fs =
      fs.set i { f with severity := min (f.severity + 2) 10,
                        remediationHint := f.remediationHint ++ critSuffix } := by
  have hd : detectRelationships fs = listModify boostFinding i fs := by
    unfold detectRelationships
    rw [h1]
    simp [h3]
  rw [hd, listModify_eq_set h2, boostFinding_eq h4]

/-- C1 counterexample: a graph state that satisfies the claim's trigger
conditions (a Nmap finding whose evidence contains 22/tcp and open, and a
Lynis finding whose evidence contains crypto) but in which the Nmap finding
starts at severity 10, so the guarded rule changes nothing: no suffix is
appended to any remediation hint, contradicting the claimed unconditional
append. -/
theorem escalation_rule_counterexample :
    (AddFindings NewUnifiedGraph [nmapSSH10, lynisCrypto6]).findings.any isOpenSSH = true ∧
    (AddFindings NewUnifiedGraph [nmapSSH10, lynisCrypto6]).findings.any isWeakCrypto = true ∧
    (AddFindings NewUnifiedGraph [nmapSSH10, lynisCrypto6]).findings.map
        (fun f => strContains f.remediationHint "CRITICAL: Combined with Weak Crypto Policy") =
      [false, false] ∧
    (AddFindings NewUnifiedGraph [nmapSSH10, lynisCrypto6]).findings.map Finding.severity =
      [10, 6] := by
  decide

/-- C1 (amended): when the finding set after ingestion has a last Nmap
open-SSH match at index i with severity strictly below 10 and some Lynis
crypto finding, the correlation pass at the end of AddFindings raises that
finding's severity by 2 capped at 10 and appends the critical-escalation
suffix to its remediation hint; when the matching finding is already at
severity 10, the rule leaves it untouched and appends nothing. In the
concrete scenario, ingesting the Nmap finding at severity 5 and the Lynis
finding at severity 6 leaves the Nmap finding at severity 7 with the
critical-escalation marker in its hint. -/
theorem escalation_rule_amended :
    (∀ (g : UnifiedGraph) (batch : List Finding) (i : Nat) (f : Finding),
        lastIdxWhere isOpenSSH (ingestAll g batch).findings = some i →
        (ingestAll g batch).findings[i]? = some f →
        (ingestAll g batch).findings.any isWeakCrypto = true →
        f.severity < 10 →
        (AddFindings g batch).findings =
          (ingestAll g batch).findings.set i
            { f with severity := min (f.severity + 2) 10,
                     remediationHint := f.remediationHint ++ critSuffix }) ∧
    escState0.findings.map Finding.severity = [7, 6] ∧
    escState0.findings.map
        (fun f => strContains f.remediationHint "CRITICAL: Combined with Weak Crypto Policy") =
      [true, false] := by
  refine ⟨?_, by decide, by decide⟩
  intro g batch i f h1 h2 h3 h4
  simp only [AddFindings]
  exact detect_boost_eq_set h1 h2 h3 h4

/-- C1 witness: the amended escalation theorem applied to the concrete
escalation scenario of the spec. -/
theorem escalation_rule_amended_witness :
    (AddFindings NewUnifiedGraph [nmapSSH5, lynisCrypto6]).findings =
      (ingestAll NewUnifiedGraph [nmapSSH5, lynisCrypto6]).findings.set 0
        { nmapSSH5 with severity := min (nmapSSH5.severity + 2) 10,
                        remediationHint := nmapSSH5.remediationHint ++ critSuffix } :=
  escalation_rule_amended.1 NewUnifiedGraph [nmapSSH5, lynisCrypto6] 0 nmapSSH5
    (by decide) (by decide) (by decide) (by decide)

/-- C2: starting from any graph whose stored severities are in range,
AddFindings keeps every stored severity between 1 and 10 inclusive, for
every input batch including severities at or below 0 and above 10, and
including the effect of the correlation pass. -/
theorem addFindings_severity_clamped (g : UnifiedGraph) (batch : List Finding)
    (hg : severityInv g.findings) : severityInv (AddFindings g batch).findings :=
  severityInv_AddFindings hg

/-- C2 witness: the clamp theorem applied to a fresh graph and a batch with
severities minus 5 and 99; the first stored finding is in range. -/
theorem addFindings_severity_clamped_witness :
    1 ≤ ((AddFindings NewUnifiedGraph [fNeg, fBig]).findings.getD 0 default).severity ∧
      ((AddFindings NewUnifiedGraph [fNeg, fBig]).findings.getD 0 default).severity ≤ 10 :=
  addFindings_severity_clamped NewUnifiedGraph [fNeg, fBig]
    (by intro f hf; cases hf)
    ((AddFindings NewUnifiedGraph [fNeg, fBig]).findings.getD 0 default) (by decide)

/-- C3 counterexample: escState0 stores the boosted Nmap SSH finding
(severity 7, hint carrying the escalation suffix) at position 0, whose
signature equals that of nmapSSH5. Re-ingesting nmapSSH5 (severity 5, empty
hint) leaves the count unchanged, but the stored record does not carry the
most recently ingested field values: the correlation pass has re-boosted
severity to 7 and re-appended the suffix. -/
theorem dedup_overwrite_counterexample :
    firstIdxWhere (fun e => sameSig e nmapSSH5) escState0.findings = some 0 ∧
    (AddFindings escState0 [nmapSSH5]).findings.length = escState0.findings.length ∧
    (AddFindings escState0 [nmapSSH5]).findings.map Finding.severity = [7, 6] ∧
    nmapSSH5.severity = 5 ∧
    (AddFindings escState0 [nmapSSH5]).findings.map
        (fun f => f.remediationHint == nmapSSH5.remediationHint) = [false, true] := by
  decide

/-- C3 (amended): ingesting a finding whose signature matches the stored
finding at the first matching index i leaves the total count unchanged and
overwrites the stored record in place at position i with the ingested
values, severity clamped to the range 1 to 10 and no merging of fields;
the correlation pass then runs over the resulting finding list and may
further adjust the severity and remediation hint of a qualifying Nmap SSH
finding. -/
theorem dedup_overwrite_amended (g : UnifiedGraph) (f : Finding) (i : Nat)
    (h : firstIdxWhere (fun e => sameSig e f) g.findings = some i) :
    (ingestAll g [f]).findings = g.findings.set i (clampSeverity f) ∧
    (AddFindings g [f]).findings = detectRelationships (g.findings.set i (clampSeverity f)) ∧
    (AddFindings g [f]).findings.length = g.findings.length := by
  have hidx : firstIdxWhere (fun e => sameSig e (clampSeverity f)) g.findings = some i := by
    have hp : (fun e => sameSig e (clampSeverity f)) = (fun e => sameSig e f) := by
      funext e
      exact sameSig_clamp e f
    rw [hp]
    exact h
  have h1 : (ingestAll g [f]).findings = g.findings.set i (clampSeverity f) := by
    simp only [ingestAll, List.foldl_cons, List.foldl_nil, addFinding]
    exact upsert_eq_set hidx
  refine ⟨h1, ?_, ?_⟩
  · simp only [AddFindings]
    rw [h1]
  · simp only [AddFindings]
    rw [h1, detect_length, List.length_set]

/-- C3 witness: the amended overwrite theorem applied to re-ingesting the
Nmap SSH finding into escState0, which stores a matching signature at
position 0. -/
theorem dedup_overwrite_amended_witness :
    (ingestAll escState0 [nmapSSH5]).findings =
        escState0.findings.set 0 (clampSeverity nmapSSH5) ∧
    (AddFindings escState0 [nmapSSH5]).findings =
        detectRelationships (escState0.findings.set 0 (clampSeverity nmapSSH5)) ∧
    (AddFindings escState0 [nmapSSH5]).findings.length = escState0.findings.length :=
  dedup_overwrite_amended escState0 nmapSSH5 0 (by decide)

/-- C4 counterexample: escState2 contains the qualifying Nmap SSH finding
(now capped at severity 10) and the qualifying Lynis crypto finding, yet
the subsequent AddFindings call re-ingesting the Lynis finding changes
nothing: no boost is re-applied and no suffix is re-appended, contradicting
the claimed re-application on every call. -/
theorem reapply_each_time_counterexample :
    escState2.findings.any isOpenSSH = true ∧
    escState2.findings.any isWeakCrypto = true ∧
    escState3.findings = escState2.findings := by
  decide

/-- C4 (amended): a subsequent AddFindings call on a graph whose resulting
finding set still has a last Nmap open-SSH match at index i with severity
strictly below 10 and some Lynis crypto finding re-applies the severity
boost of 2 (capped at 10) and re-appends the critical-escalation suffix,
without checking whether the rule already fired; once the stored severity
reaches 10 the rule stops firing entirely. The concrete chain: severities
go 7, 9, 10 over three ingestions and the suffix is appended once per
firing. -/
theorem reapply_each_time_amended :
    (∀ (g : UnifiedGraph) (x : Finding) (i : Nat) (f : Finding),
        lastIdxWhere isOpenSSH (ingestAll g [x]).findings = some i →
        (ingestAll g [x]).findings[i]? = some f →
        (ingestAll g [x]).findings.any isWeakCrypto = true →
        f.severity < 10 →
        (AddFindings g [x]).findings =
          (ingestAll g [x]).findings.set i
            { f with severity := min (f.severity + 2) 10,
                     remediationHint := f.remediationHint ++ critSuffix }) ∧
    escState0.findings.map Finding.severity = [7, 6] ∧
    escState1.findings.map Finding.severity = [9, 6] ∧
    escState2.findings.map Finding.severity = [10, 6] ∧
    escState0.findings.map Finding.remediationHint = [critSuffix, ""] ∧
    escState1.findings.map Finding.remediationHint = [critSuffix ++ critSuffix, ""] ∧
    escState2.findings.map Finding.remediationHint =
      [critSuffix ++ critSuffix ++ critSuffix, ""] := by
  refine ⟨?_, by decide, by decide, by decide, by decide, by decide, by decide⟩
  intro g x i f h1 h2 h3 h4
  simp only [AddFindings]
  exact detect_boost_eq_set h1 h2 h3 h4

/-- C4 witness: the amended re-application theorem applied to re-ingesting
the Lynis finding into escState0, whose stored Nmap finding sits at
severity 7. -/
theorem reapply_each_time_amended_witness :
    (AddFindings escState0 [lynisCrypto6]).findings =
      (ingestAll escState0 [lynisCrypto6]).findings.set 0
        { nmapSSH7esc with severity := min (nmapSSH7esc.severity + 2) 10,
                           remediationHint := nmapSSH7esc.remediationHint ++ critSuffix } :=
  reapply_each_time_amended.1 escState0 lynisCrypto6 0 nmapSSH7esc
    (by decide) (by decide) (by decide) (by decide)

/-- C5: for every source graph, saving a snapshot and loading it into a
fresh graph reproduces exactly the source graph's finding list (hence the
same signatures and the same field values for every finding). -/
theorem snapshot_round_trip (g : UnifiedGraph) :
    (saveLoadRoundTrip g).findings = g.findings := by
  simp only [saveLoadRoundTrip, SaveSnapshot, LoadSnapshot]
  split
  · next g2 heq =>
    split at heq
    · cases heq
      rfl
    · cases heq
  · next e heq =>
    split at heq
    · cases heq
    · next hc =>
      cases heq
      simp only [gt_iff_lt, Bool.or_eq_true, decide_eq_true_eq, not_or, Nat.not_lt,
        Nat.le_zero] at hc
      have h0 : g.findings = [] := List.length_eq_zero.mp hc.2
      rw [h0]
      rfl

/-- C6 counterexample: a file whose envelope parse succeeds and yields one
edge but no nodes and no findings. The claim predicts the envelope is
accepted (it yielded edges) and no error; the code ignores edges in the
acceptance test, falls back to the bare-list parse, and errors. -/
theorem load_fallback_counterexample :
    envelopeParseOk edgeOnlyFile = true ∧
    edgeOnlySnapshot.edges.length = 1 ∧
    loadIsError (LoadSnapshot NewUnifiedGraph edgeOnlyFile) = true := by
  decide

/-- C6 (amended): LoadSnapshot takes the envelope result exactly when the
envelope parse succeeds and yields at least one node or at least one
finding; edges alone do not prevent the fallback. Otherwise it parses the
content as a bare finding list, and it errors exactly when the envelope
path is not taken and the bare-list parse fails. -/
theorem load_fallback_amended :
    (∀ (g : UnifiedGraph) (s : GraphSnapshot),
        0 < s.nodes.length ∨ 0 < s.findings.length →
        LoadSnapshot g (JsonFile.envelope s) =
          Except.ok { g with nodes := s.nodes, edges := s.edges, findings := s.findings }) ∧
    (∀ (g : UnifiedGraph) (s : GraphSnapshot),
        s.nodes = [] → s.findings = [] →
        LoadSnapshot g (JsonFile.envelope s) = Except.error loadErrMsg) ∧
    (∀ (g : UnifiedGraph) (fs : List Finding),
        LoadSnapshot g (JsonFile.bareList fs) = Except.ok { g with findings := fs }) ∧
    (∀ g : UnifiedGraph, LoadSnapshot g JsonFile.invalid = Except.error loadErrMsg) := by
  refine ⟨?_, ?_, fun g fs => rfl, fun g => rfl⟩
  · intro g s h
    have hc : (decide (s.nodes.length > 0) || decide (s.findings.length > 0)) = true := by
      rcases h with h | h <;> simp [h]
    simp [LoadSnapshot, hc]
  · intro g s h1 h2
    simp [LoadSnapshot, h1, h2]

/-- C6 witness: the amended loader theorem applied to a findings-only
envelope, an empty envelope, a bare list and the invalid content. -/
theorem load_fallback_amended_witness :
    LoadSnapshot NewUnifiedGraph (JsonFile.envelope { nodes := [], edges := [], findings := [fA1] }) =
        Except.ok { NewUnifiedGraph with nodes := [], edges := [], findings := [fA1] } ∧
    LoadSnapshot NewUnifiedGraph (JsonFile.envelope { nodes := [], edges := [], findings := [] }) =
        Except.error loadErrMsg ∧
    LoadSnapshot NewUnifiedGraph (JsonFile.bareList [fA1]) =
        Except.ok { NewUnifiedGraph with findings := [fA1] } ∧
    LoadSnapshot NewUnifiedGraph JsonFile.invalid = Except.error loadErrMsg :=
  ⟨load_fallback_amended.1 NewUnifiedGraph { nodes := [], edges := [], findings := [fA1] }
      (Or.inr (by decide)),
   load_fallback_amended.2.1 NewUnifiedGraph { nodes := [], edges := [], findings := [] }
      rfl rfl,
   load_fallback_amended.2.2.1 NewUnifiedGraph [fA1],
   load_fallback_amended.2.2.2 NewUnifiedGraph⟩

/-- C7: CompareSnapshot partitions by signature: Unchanged is exactly the
current findings whose signature occurs in the baseline, New is exactly the
current findings whose signature does not, every Fixed entry is a baseline
finding whose signature is absent from the current graph, and every
baseline finding with a signature absent from the current graph is
represented in Fixed by an entry with the same signature; the concrete
Asset1/Asset2/Asset3 scenario yields Unchanged, Fixed and New exactly as
the spec states. -/
theorem compare_snapshot_partitions :
    (∀ g b : UnifiedGraph,
      (CompareSnapshot g b).unchanged =
        g.findings.filter
          (fun f => strMem (b.findings.map GenerateSignature) (GenerateSignature f)) ∧
      (CompareSnapshot g b).new =
        g.findings.filter
          (fun f => ! strMem (b.findings.map GenerateSignature) (GenerateSignature f)) ∧
      (∀ f ∈ (CompareSnapshot g b).fixed,
        f ∈ b.findings ∧
          strMem (g.findings.map GenerateSignature) (GenerateSignature f) = false) ∧
      (∀ f ∈ b.findings,
        strMem (g.findings.map GenerateSignature) (GenerateSignature f) = false →
        ∃ f2 ∈ (CompareSnapshot g b).fixed, GenerateSignature f2 = GenerateSignature f)) ∧
    CompareSnapshot currentG baselineG = { new := [fA3], fixed := [fA2], unchanged := [fA1] } := by
  refine ⟨?_, by decide⟩
  intro g b
  have hpred : (fun f => mapContainsKey (buildSigMap b.findings) (GenerateSignature f)) =
      (fun f => strMem (b.findings.map GenerateSignature) (GenerateSignature f)) := by
    funext f
    rw [mapContainsKey_buildSigMap]
  have hpred2 : (fun f => ! mapContainsKey (buildSigMap b.findings) (GenerateSignature f)) =
      (fun f => ! strMem (b.findings.map GenerateSignature) (GenerateSignature f)) := by
    funext f
    rw [mapContainsKey_buildSigMap]
  refine ⟨?_, ?_, ?_, ?_⟩
  · rw [CompareSnapshot_eq]
    simp only [hpred]
  · rw [CompareSnapshot_eq]
    simp only [hpred2]
  · intro f hf
    rw [CompareSnapshot_eq] at hf
    simp only at hf
    rcases List.mem_map.mp hf with ⟨p, hpf, hsnd⟩
    rcases List.mem_filter.mp hpf with ⟨hpmem, hppred⟩
    have hent := buildSigMap_entries hpmem
    have hcur : mapContainsKey (buildSigMap g.findings) p.1 = false := by
      cases hb : mapContainsKey (buildSigMap g.findings) p.1
      · rfl
      · rw [hb] at hppred
        exact absurd hppred (by simp)
    rw [mapContainsKey_buildSigMap] at hcur
    refine ⟨hsnd ▸ hent.1, ?_⟩
    rw [← hsnd, ← hent.2]
    exact hcur
  · intro f hf hsig
    have hbase : mapContainsKey (buildSigMap b.findings) (GenerateSignature f) = true := by
      rw [mapContainsKey_buildSigMap]
      exact strMem_iff_mem.mpr (List.mem_map_of_mem GenerateSignature hf)
    rcases mapContainsKey_exists hbase with ⟨v, hv⟩
    have hent := buildSigMap_entries hv
    have hsv : GenerateSignature v = GenerateSignature f := by
      have h2 := hent.2
      simp only at h2
      exact h2.symm
    refine ⟨v, ?_, hsv⟩
    rw [CompareSnapshot_eq]
    simp only
    refine List.mem_map.mpr ⟨(GenerateSignature f, v), ?_, rfl⟩
    refine List.mem_filter.mpr ⟨hv, ?_⟩
    rw [mapContainsKey_buildSigMap]
    simp only
    rw [hsig]
    rfl

/-- C7 witness: the partition theorem applied to the concrete diff
scenario, instantiating the Fixed-soundness conjunct at the Asset2
finding. -/
theorem compare_snapshot_partitions_witness :
    fA2 ∈ baselineG.findings ∧
      strMem (currentG.findings.map GenerateSignature) (GenerateSignature fA2) = false :=
  (compare_snapshot_partitions.1 currentG baselineG).2.2.1 fA2 (by decide)

/-- C8: FindPathsToCriticalAssets returns the empty list (its return type
has no error channel at all) whenever the graph has no attacker vertex, and
likewise whenever no finding of severity at least 7 has an asset backed by
a node, which subsumes the empty finding set. -/
theorem find_paths_absence_empty :
    (∀ g : UnifiedGraph,
      lookupNode g.nodes "attacker" = none → FindPathsToCriticalAssets g = []) ∧
    (∀ g : UnifiedGraph,
      (∀ f ∈ g.findings, ¬ (7 ≤ f.severity ∧ (lookupNode g.nodes f.asset).isSome = true)) →
      FindPathsToCriticalAssets g = []) := by
  constructor
  · intro g h
    simp [FindPathsToCriticalAssets, h]
  · intro g h
    have ht := targetAssets_eq_nil h
    simp only [FindPathsToCriticalAssets, ht, List.foldl_nil]
    split <;> rfl

/-- C8 witness: the absence theorem applied to a graph without an attacker
vertex and to a graph whose only finding has severity 5. -/
theorem find_paths_absence_empty_witness :
    FindPathsToCriticalAssets noAttackerGraph = [] ∧
      FindPathsToCriticalAssets lowSevGraph = [] :=
  ⟨find_paths_absence_empty.1 noAttackerGraph (by decide),
   find_paths_absence_empty.2 lowSevGraph (by decide)⟩

/-- C9: the BFS of the attack path engine terminates on every topology,
cyclic ones included, because the visited set prevents re-enqueuing: any
two fuel bounds above the decreasing measure yield the same answer, so the
unbounded Go loop stops within bfsMeasure iterations; and on the concrete
cycle (attacker to B, B to attacker) with B qualifying at severity 8 the
engine returns exactly one finite two-step path. -/
theorem bfs_cycle_terminates :
    (∀ (edges : List Edge) (endId : String) (f1 f2 : Nat) (queue : List (List String))
        (visited : List String),
      bfsMeasure edges queue visited < f1 → bfsMeasure edges queue visited < f2 →
      bfsAux edges endId f1 queue visited = bfsAux edges endId f2 queue visited) ∧
    FindPathsToCriticalAssets cycleGraph = [cyclePath] ∧
    cyclePath.steps.length = 2 :=
  ⟨fun edges endId f1 f2 q v h1 h2 => bfsAux_fuel_indep_aux edges endId f1 f2 q v h1 h2,
   by decide, by decide⟩

/-- C9 witness: fuel independence applied on the cyclic graph with two
different fuel bounds above the measure. -/
theorem bfs_cycle_terminates_witness :
    bfsAux cycleGraph.edges "B" 5 [["attacker"]] ["attacker"] =
      bfsAux cycleGraph.edges "B" 50 [["attacker"]] ["attacker"] :=
  bfs_cycle_terminates.1 cycleGraph.edges "B" 5 50 [["attacker"]] ["attacker"]
    (by decide) (by decide)

/-- C10: LoadSnapshot replaces the findings with exactly the parsed list,
verbatim: a bare-list file always loads as given, so a file can load a
finding with severity 42 (outside 1 to 10) and a file can load two
findings with the same signature; whereas AddFindings, from any state
satisfying the ingestion invariants, always preserves both the severity
range and the pairwise distinctness of signatures, so it can never produce
such states. -/
theorem load_verbatim_vs_ingestion :
    (∀ (g : UnifiedGraph) (fs : List Finding),
        LoadSnapshot g (JsonFile.bareList fs) = Except.ok { g with findings := fs }) ∧
    (loadedFindings (LoadSnapshot NewUnifiedGraph (JsonFile.bareList [f42])) = [f42] ∧
      f42.severity = 42) ∧
    (loadedFindings (LoadSnapshot NewUnifiedGraph (JsonFile.bareList [fA1, fA1])) = [fA1, fA1] ∧
      sameSig fA1 fA1 = true) ∧
    (∀ (g : UnifiedGraph) (batch : List Finding),
        severityInv g.findings → distinctSigs g.findings →
        severityInv (AddFindings g batch).findings ∧
          distinctSigs (AddFindings g batch).findings) := by
  refine ⟨fun g fs => rfl, by decide, by decide, ?_⟩
  intro g batch h1 h2
  exact ⟨severityInv_AddFindings h1, distinctSigs_AddFindings h2⟩

/-- C10 witness: the invariant-preservation conjunct applied to a fresh
graph and a batch containing an out-of-range severity. -/
theorem load_verbatim_vs_ingestion_witness :
    severityInv (AddFindings NewUnifiedGraph [fNeg, fA1]).findings ∧
      distinctSigs (AddFindings NewUnifiedGraph [fNeg, fA1]).findings :=
  load_verbatim_vs_ingestion.2.2.2 NewUnifiedGraph [fNeg, fA1]
    (by intro f hf; cases hf) (List.Pairwise.nil)

end GoSec
